import Mathlib

/-!
Shallow embedding of the lbrycrd claim-trie cache engine
(`src/claimtrie/trie.cpp`) and proofs checking the natural-language
specification against it.

Byte strings (names, claim ids, transaction ids, hashes) are modelled as
`List Nat`; SQLite BLOB comparison is memcmp-style lexicographic order.
Heights and amounts are `Int` (C++ `int` / `int64_t`); where C++ division
appears we use `Int.tdiv` (truncation toward zero).  The SQLite tables are
modelled as lists of rows; the double-SHA256 primitive (declared in
`hashes.h`, outside the sources) is an abstract function parameter.
-/

namespace ClaimTrie

abbrev Bytes := List Nat

/-- SQLite BLOB comparison (memcmp on the common length, shorter first). -/
def blobLe : Bytes → Bytes → Bool
  | [], _ => true
  | _ :: _, [] => false
  | a :: as, b :: bs => decide (a < b) || (a == b && blobLe as bs)

/-- Strict version of `blobLe`. -/
def blobLt : Bytes → Bytes → Bool
  | [], [] => false
  | [], _ :: _ => true
  | _ :: _, [] => false
  | a :: as, b :: bs => decide (a < b) || (a == b && blobLt as bs)

/-! ## Hash primitives (trie.cpp lines 15-33, 435-439) -/

/-- `heightToVch`: 8 zero bytes with the four byte-assignments
`vchHeight[4] = n >> 24; … vchHeight[7] = n;`, each truncated to `uint8_t`. -/
def heightToVch (n : Nat) : Bytes :=
  ((((List.replicate 8 0).set 4 ((n >>> 24) % 256)).set 5
      ((n >>> 16) % 256)).set 6 ((n >>> 8) % 256)).set 7 (n % 256)

/-- ASCII decimal rendering of a number (`std::to_string` on `uint32_t`). -/
def asciiDecimal (n : Nat) : Bytes := (Nat.toDigits 10 n).map Char.toNat

/-- `getValueHash(outPoint, nHeightOfLastTakeover)`, with the double-SHA256
primitive `Hsh` (declared in `hashes.h`, outside these sources) abstract. -/
def getValueHash (Hsh : Bytes → Bytes) (txHash : Bytes) (txN : Nat)
    (nHeightOfLastTakeover : Nat) : Bytes :=
  let hash1 := Hsh txHash
  let snOut := asciiDecimal txN
  let hash2 := Hsh snOut
  let vchHash := heightToVch nHeightOfLastTakeover
  let hash3 := Hsh vchHash
  Hsh (hash1 ++ hash2 ++ hash3)

/-- Big-endian 4-byte rendering of a 32-bit value, written from the spec's
words for comparison with `heightToVch`. -/
def bigEndian32 (n : Nat) : Bytes :=
  [n / 2 ^ 24 % 256, n / 2 ^ 16 % 256, n / 2 ^ 8 % 256, n % 256]

/-- Value of a big-endian byte string. -/
def beNat (l : Bytes) : Nat := l.foldl (fun a b => a * 256 + b) 0

/-- The spec's formula `H( H(txHash) ‖ H(ascii-decimal(txN)) ‖ H(bigEndian64(h)) )`
with the 64-bit encoding written as four zero bytes followed by the 32-bit
big-endian value. -/
def specHashValue (Hsh : Bytes → Bytes) (txHash : Bytes) (txN : Nat)
    (h : Nat) : Bytes :=
  Hsh (Hsh txHash ++ Hsh (asciiDecimal txN) ++ Hsh ([0, 0, 0, 0] ++ bigEndian32 h))

/-! ## Table rows and database state (trie.cpp lines 74-115) -/

structure ClaimRow where
  claimID : Bytes
  name : Bytes
  nodeName : Bytes
  txID : Bytes
  txN : Nat
  originalHeight : Int
  updateHeight : Int
  validHeight : Int
  activationHeight : Int
  expirationHeight : Int
  amount : Int
deriving DecidableEq, Repr

structure SupportRow where
  txID : Bytes
  txN : Nat
  supportedClaimID : Bytes
  name : Bytes
  nodeName : Bytes
  blockHeight : Int
  validHeight : Int
  activationHeight : Int
  expirationHeight : Int
  amount : Int
deriving DecidableEq, Repr

structure NodeRow where
  name : Bytes
  parent : Option Bytes
  hash : Option Bytes
deriving DecidableEq, Repr

structure TakeoverRow where
  name : Bytes
  height : Int
  claimID : Option Bytes
deriving DecidableEq, Repr

structure DBState where
  nodes : List NodeRow
  claims : List ClaimRow
  supports : List SupportRow
  takeovers : List TakeoverRow
  nextHeight : Int
  removalWorkaround : List Bytes
  transacting : Bool
deriving DecidableEq, Repr

/-- Consensus parameters fixed at construction.  The takeover-workarounds
table is included here.  Modelled from the spec: `takeoverworkarounds.h` is
not among the sources; per spec §4.6 it is "a fixed, built-in table of
`(height, name)` pairs" that "forces a takeover even when the normal rule
would not", consulted only for heights below 658300. -/
structure TrieParams where
  nProportionalDelayFactor : Int
  nMinRemovalWorkaroundHeight : Int
  nMaxRemovalWorkaroundHeight : Int
  nOriginalClaimExpirationTime : Int
  takeoverWorkarounds : List (Int × Bytes)
deriving DecidableEq, Repr

/-- The constant `emptyTrieHash = uint256S("0…01")`. -/
def emptyTrieHash : Bytes := List.replicate 31 0 ++ [1]

/-- State right after `CClaimTrie`'s constructor ran on a fresh store: empty
tables except for the root node inserted with the empty-trie hash. -/
def initialState (height : Int) : DBState :=
  { nodes := [⟨[], none, some emptyTrieHash⟩], claims := [], supports := [],
    takeovers := [], nextHeight := height, removalWorkaround := [],
    transacting := false }

/-! ## Read helpers -/

/-- Row of the `takeover` table with the greatest height for `name`
(`ORDER BY t.height DESC LIMIT 1`). -/
def latestTakeover (rows : List TakeoverRow) (name : Bytes) :
    Option (Int × Option Bytes) :=
  (rows.filter (fun r => r.name == name)).foldl
    (fun acc r =>
      match acc with
      | none => some (r.height, r.claimID)
      | some (h, _) => if r.height > h then some (r.height, r.claimID) else acc)
    none

/-- `getLastTakeoverForName` (trie.cpp 623-637): succeeds only when the latest
record carries a non-null claimID, returning `(claimId, takeoverHeight)`. -/
def getLastTakeoverForName (s : DBState) (name : Bytes) : Option (Bytes × Int) :=
  match latestTakeover s.takeovers name with
  | some (h, some id) => some (id, h)
  | _ => none

/-- Live filter `activationHeight < ?1 AND expirationHeight >= ?1` at height `H`. -/
def claimLiveAt (c : ClaimRow) (H : Int) : Bool :=
  decide (c.activationHeight < H) && decide (c.expirationHeight ≥ H)

def supportLiveAt (su : SupportRow) (H : Int) : Bool :=
  decide (su.activationHeight < H) && decide (su.expirationHeight ≥ H)

/-- Upper bound of the node-name range scan in `emptyNodeShouldExistAt`:
`name + std::string(256, std::numeric_limits<char>::max())` — note `char` is
signed, so the pad byte is 127. -/
def nodeRangeEnd (name : Bytes) : Bytes := name ++ List.replicate 256 127

/-- `emptyNodeShouldExistAt` (trie.cpp 203-222): scan live claims with
`nodeName BETWEEN name AND name+pad` in ascending order; a claim filed at
`name` itself (the first row of the range) returns false; otherwise count
distinct bytes at position `|name|` of the node names found. -/
def emptyNodeShouldExistAt (s : DBState) (name : Bytes) (H : Int)
    (requiredChildren : Nat) : Bool :=
  let nns := (s.claims.filter (fun c =>
      claimLiveAt c H && blobLe name c.nodeName &&
        blobLe c.nodeName (nodeRangeEnd name))).map (fun c => c.nodeName)
  if nns.contains name then false
  else decide ((nns.filterMap (fun nn => (nn.drop name.length).head?)).dedup.length
      ≥ requiredChildren)

/-! ## Delay computation (trie.cpp 874-908) -/

/-- `getDelayForName(name, claimId)`; the second component is the state after
the possible erasure from the `removalWorkaround` set. -/
def getDelayForName (p : TrieParams) (s : DBState) (name claimId : Bytes) :
    Int × DBState :=
  match getLastTakeoverForName s name with
  | some (winId, winH) =>
      if winId == claimId then (0, s)
      else if s.nextHeight > p.nMaxRemovalWorkaroundHeight then
        if emptyNodeShouldExistAt s name s.nextHeight 2 then (0, s)
        else (min ((s.nextHeight - winH).tdiv p.nProportionalDelayFactor) 4032, s)
      else if s.removalWorkaround.contains name then
        (0, { s with removalWorkaround := s.removalWorkaround.erase name })
      else (min ((s.nextHeight - winH).tdiv p.nProportionalDelayFactor) 4032, s)
  | none =>
      if s.nextHeight > p.nMaxRemovalWorkaroundHeight then (0, s)
      else if s.removalWorkaround.contains name then
        (0, { s with removalWorkaround := s.removalWorkaround.erase name })
      else (0, s)

/-! ## Effective amounts and the best claim (claimHashQuery, trie.cpp 539-547) -/

/-- Subquery of `claimHashQuery_s`: total amount of supports for `claimID`
under `nodeName` that are live at `H`. -/
def supportTotalAt (supports : List SupportRow) (claimID nodeName : Bytes)
    (H : Int) : Int :=
  ((supports.filter (fun su => su.supportedClaimID == claimID &&
      su.nodeName == nodeName && supportLiveAt su H)).map
        (fun su => su.amount)).sum

def effectiveAmountAt (s : DBState) (c : ClaimRow) (H : Int) : Int :=
  supportTotalAt s.supports c.claimID c.nodeName H + c.amount

/-- `ORDER BY effectiveAmount DESC, c.updateHeight, c.txID, c.txN`: `a` sorts
strictly before `b`. -/
def claimOrdBefore (s : DBState) (H : Int) (a b : ClaimRow) : Bool :=
  let ea := effectiveAmountAt s a H
  let eb := effectiveAmountAt s b H
  decide (ea > eb) || (decide (ea = eb) &&
    (decide (a.updateHeight < b.updateHeight) ||
      (decide (a.updateHeight = b.updateHeight) &&
        (blobLt a.txID b.txID || (a.txID == b.txID && decide (a.txN < b.txN))))))

/-- `getInfoForName(name, claim, heightOffset)` (trie.cpp 383-395): first row
of `claimHashQueryLimit` at height `nextHeight + offset`. -/
def getInfoForName (s : DBState) (name : Bytes) (offset : Int) :
    Option ClaimRow :=
  let H := s.nextHeight + offset
  let live := s.claims.filter (fun c => c.nodeName == name && claimLiveAt c H)
  live.foldl (fun acc c =>
    match acc with
    | none => some c
    | some b => some (if claimOrdBefore s H c b then c else b)) none

/-! ## Node-table primitives -/

/-- `UPDATE node SET hash = NULL WHERE name = ?`. -/
def markDirty (nodes : List NodeRow) (name : Bytes) : List NodeRow :=
  nodes.map (fun n => if n.name == name then { n with hash := none } else n)

/-- `INSERT INTO node(name) VALUES(?) ON CONFLICT(name) DO UPDATE SET hash = NULL`:
a fresh row gets NULL parent and NULL hash. -/
def upsertDirty (nodes : List NodeRow) (name : Bytes) : List NodeRow :=
  if nodes.any (fun n => n.name == name) then markDirty nodes name
  else nodes ++ [⟨name, none, none⟩]

/-- `INSERT INTO node(name, parent, hash) VALUES(?, ?, NULL) ON CONFLICT(name)
DO UPDATE SET parent = excluded.parent, hash = NULL`. -/
def upsertNode (nodes : List NodeRow) (name parent : Bytes) : List NodeRow :=
  if nodes.any (fun n => n.name == name) then
    nodes.map (fun n =>
      if n.name == name then { n with parent := some parent, hash := none } else n)
  else nodes ++ [⟨name, some parent, none⟩]

/-- `UPDATE node SET parent = ? WHERE name = ?`. -/
def setParent (nodes : List NodeRow) (name parent : Bytes) : List NodeRow :=
  nodes.map (fun n => if n.name == name then { n with parent := some parent } else n)

def ensureTransacting (s : DBState) : DBState := { s with transacting := true }

/-- `adjustNameForValidHeight` is the identity in the base class (trie.cpp 910-913). -/
def adjustNameForValidHeight (name : Bytes) (validHeight : Int) : Bytes :=
  name

/-! ## addClaim / addSupport (trie.cpp 639-694) -/

def addClaim (p : TrieParams) (s : DBState) (name txID : Bytes) (txN : Nat)
    (claimId : Bytes) (nAmount nHeight nValidHeight originalHeight : Int) :
    DBState :=
  let s := ensureTransacting s
  let (vh, s) :=
    if nValidHeight ≤ 0 then
      let (d, s1) := getDelayForName p s name claimId
      (nHeight + d, s1)
    else (nValidHeight, s)
  let oh := if originalHeight ≤ 0 then nHeight else originalHeight
  let nodeName := adjustNameForValidHeight name vh
  let expires := p.nOriginalClaimExpirationTime + nHeight
  let row : ClaimRow :=
    ⟨claimId, name, nodeName, txID, txN, oh, nHeight, vh, vh, expires, nAmount⟩
  let s := { s with claims := s.claims ++ [row] }
  if vh < s.nextHeight then { s with nodes := upsertDirty s.nodes nodeName }
  else s

def addSupport (p : TrieParams) (s : DBState) (name txID : Bytes) (txN : Nat)
    (supportedClaimId : Bytes) (nAmount nHeight nValidHeight : Int) : DBState :=
  let s := ensureTransacting s
  let (vh, s) :=
    if nValidHeight < 0 then
      let (d, s1) := getDelayForName p s name supportedClaimId
      (nHeight + d, s1)
    else (nValidHeight, s)
  let nodeName := adjustNameForValidHeight name vh
  let expires := p.nOriginalClaimExpirationTime + nHeight
  let row : SupportRow :=
    ⟨txID, txN, supportedClaimId, name, nodeName, nHeight, vh, vh, expires, nAmount⟩
  let s := { s with supports := s.supports ++ [row] }
  if vh < s.nextHeight then { s with nodes := markDirty s.nodes nodeName }
  else s

/-! ## removeClaim / removeSupport (trie.cpp 696-751) -/

/-- `removeClaim(claimId, outPoint, nodeName, validHeight, originalHeight)`.
The returned triple is `(nodeName, activationHeight, originalHeight)` — the
`validHeight` out-parameter receives the row's `activationHeight`.  The
`DELETE` matched the row found by the preceding `SELECT`, so the
`rows_modified` early-out never fires. -/
def removeClaim (p : TrieParams) (s : DBState) (claimId txID : Bytes)
    (txN : Nat) : Option (Bytes × Int × Int) × DBState :=
  let s := ensureTransacting s
  match s.claims.find? (fun c => c.claimID == claimId && c.txID == txID &&
      c.txN == txN && decide (c.expirationHeight ≥ s.nextHeight)) with
  | none => (none, s)
  | some c =>
      let s := { s with claims := s.claims.filter (fun d =>
        !(d.claimID == claimId && d.txID == txID && d.txN == txN)) }
      let s := { s with nodes := markDirty s.nodes c.nodeName }
      let s :=
        if decide (s.nextHeight ≥ p.nMinRemovalWorkaroundHeight) &&
            decide (s.nextHeight < p.nMaxRemovalWorkaroundHeight) &&
            emptyNodeShouldExistAt s c.nodeName s.nextHeight 1 then
          { s with removalWorkaround := s.removalWorkaround.insert c.nodeName }
        else s
      (some (c.nodeName, c.activationHeight, c.originalHeight), s)

/-- `removeSupport(outPoint, nodeName, validHeight)`; the query runs before
`ensureTransacting`. -/
def removeSupport (s : DBState) (txID : Bytes) (txN : Nat) :
    Option (Bytes × Int) × DBState :=
  match s.supports.find? (fun su => su.txID == txID && su.txN == txN &&
      decide (su.expirationHeight ≥ s.nextHeight)) with
  | none => (none, s)
  | some su =>
      let s := ensureTransacting s
      let s := { s with supports := s.supports.filter (fun t =>
        !(t.txID == txID && t.txN == txN)) }
      (some (su.nodeName, su.activationHeight),
        { s with nodes := markDirty s.nodes su.nodeName })

/-! ## Takeover resolution (trie.cpp 756-836) -/

/-- `activateAllFor(name)` (trie.cpp 824-836): pull activation down to
`nextHeight` for every claim and support under `name` still pending and not
expiring; returns whether any row changed. -/
def activateAllFor (s : DBState) (name : Bytes) : Bool × DBState :=
  let H := s.nextHeight
  let cPred := fun (c : ClaimRow) => c.nodeName == name &&
    decide (c.activationHeight > H) && decide (c.expirationHeight > H)
  let sPred := fun (su : SupportRow) => su.nodeName == name &&
    decide (su.activationHeight > H) && decide (su.expirationHeight > H)
  let touched := s.claims.any cPred || s.supports.any sPred
  (touched,
    { s with
      claims := s.claims.map (fun c =>
        if cPred c then { c with activationHeight := H } else c),
      supports := s.supports.map (fun su =>
        if sPred su then { su with activationHeight := H } else su) })

/-- Normal takeover condition
`!hasCandidate || !hasCurrentWinner || existingID != candidateValue.claimId`. -/
def normalTakeoverRule (s : DBState) (name : Bytes) : Bool :=
  match getInfoForName s name 1, getLastTakeoverForName s name with
  | some c, some (id, _) => !(id == c.claimID)
  | _, _ => true

/-- Body of the per-dirty-name lambda inside `insertTakeovers`
(trie.cpp 787-819): `activateAllFor` runs only under the normal rule, and
the candidate is re-read only when it modified rows (when it did not, the
state is unchanged, so re-reading would return the same candidate). -/
def processTakeover (p : TrieParams) (s : DBState) (name : Bytes) : DBState :=
  let cand0 := getInfoForName s name 1
  let happening0 := normalTakeoverRule s name
  let s1 := if happening0 then (activateAllFor s name).2 else s
  let cand1 :=
    if happening0 && (activateAllFor s name).1 then getInfoForName s1 name 1
    else cand0
  let happening := happening0 ||
    (decide (s.nextHeight < 658300) &&
      p.takeoverWorkarounds.contains (s.nextHeight, name))
  if happening then
    { s1 with takeovers :=
        ⟨name, s1.nextHeight, cand1.map (fun c => c.claimID)⟩ :: s1.takeovers }
  else s1

/-- Names of nodes with NULL hash. -/
def dirtyNames (s : DBState) : List Bytes :=
  (s.nodes.filter (fun n => n.hash.isNone)).map (fun n => n.name)

/-- `insertTakeovers` (trie.cpp 781-822): the node table is not touched by the
loop body, so iterating the initially-dirty names is faithful. -/
def insertTakeovers (p : TrieParams) (s : DBState) : DBState :=
  (dirtyNames s).foldl (processTakeover p) s

/-- `incrementBlock` (trie.cpp 756-779). -/
def incrementBlock (p : TrieParams) (s : DBState) : DBState :=
  let s := ensureTransacting s
  let H := s.nextHeight
  let names1 := (s.claims.filter (fun c =>
      decide (c.activationHeight = H) && decide (c.expirationHeight > H))).map
        (fun c => c.nodeName)
  let nodes1 := names1.foldl upsertDirty s.nodes
  let names2 := (s.claims.filter (fun c => c.expirationHeight == H)).map
      (fun c => c.nodeName) ++
    (s.supports.filter (fun su =>
      su.expirationHeight == H || su.activationHeight == H)).map
        (fun su => su.nodeName)
  let nodes2 := names2.foldl markDirty nodes1
  let s := insertTakeovers p { s with nodes := nodes2 }
  { s with nextHeight := s.nextHeight + 1 }

/-- `decrementBlock` (trie.cpp 838-860). -/
def decrementBlock (s : DBState) : DBState :=
  let s := ensureTransacting s
  let s := { s with nextHeight := s.nextHeight - 1 }
  let H := s.nextHeight
  let nodes1 := ((s.claims.filter (fun c => c.expirationHeight == H)).map
      (fun c => c.nodeName)).foldl upsertDirty s.nodes
  let nodes2 := ((s.supports.filter (fun su =>
        su.expirationHeight == H || su.activationHeight == H)).map
          (fun su => su.nodeName) ++
      (s.claims.filter (fun c => c.activationHeight == H)).map
        (fun c => c.nodeName)).foldl markDirty nodes1
  { s with
    nodes := nodes2,
    claims := s.claims.map (fun c =>
      if c.activationHeight == H then { c with activationHeight := c.validHeight }
      else c),
    supports := s.supports.map (fun su =>
      if su.activationHeight == H then { su with activationHeight := su.validHeight }
      else su) }

/-- `finalizeDecrement` (trie.cpp 862-872). -/
def finalizeDecrement (s : DBState) : DBState :=
  let H := s.nextHeight
  let names := (s.claims.filter (fun c =>
      c.activationHeight == H && decide (c.expirationHeight > H))).map
        (fun c => c.nodeName) ++
    (s.supports.filter (fun su =>
      su.activationHeight == H && decide (su.expirationHeight > H))).map
        (fun su => su.nodeName) ++
    (s.takeovers.filter (fun t => t.height == H)).map (fun t => t.name)
  { s with
    nodes := names.foldl markDirty s.nodes,
    takeovers := s.takeovers.filter (fun t => !decide (t.height ≥ H)) }

/-! ## Trie-structure maintainer (trie.cpp 224-346) -/

/-- Result of `deleteNodeIfPossible(name, parent, claims)`: the boolean
return, the value written to the `parent` out-parameter (when assigned), the
value written to `claims`, and the updated state. -/
structure DelResult where
  ret : Bool
  parentOut : Option Bytes
  claims : Int
  st : DBState
deriving Repr

/-- `SELECT COUNT(*) FROM (SELECT 1 FROM claim WHERE … LIMIT 1)`: 0 or 1. -/
def liveClaimCountAt (s : DBState) (name : Bytes) : Int :=
  if s.claims.any (fun c => c.nodeName == name && claimLiveAt c s.nextHeight)
  then 1 else 0

def childrenOf (nodes : List NodeRow) (name : Bytes) : List NodeRow :=
  nodes.filter (fun n => n.parent == some name)

/-- `MAX(name)` over a list of blobs (NULL modelled as the empty blob). -/
def maxName (l : List Bytes) : Bytes :=
  l.foldl (fun a b => if blobLt a b then b else a) []

/-- `deleteNodeIfPossible` (trie.cpp 224-252).  A node is removed only when
its name is non-empty, it has no live claims and at most one child; the sole
child is reparented to the grandparent and the parent is marked dirty. -/
def deleteNodeIfPossible (s : DBState) (name : Bytes) : DelResult :=
  if name.isEmpty then ⟨false, none, 0, s⟩
  else
    let claims := liveClaimCountAt s name
    if claims > 0 then ⟨false, none, claims, s⟩
    else
      let kids := (childrenOf s.nodes name).map (fun n => n.name)
      if kids.length > 1 then ⟨false, none, claims, s⟩
      else
        match s.nodes.find? (fun n => n.name == name) with
        | none => ⟨true, none, claims, s⟩
        | some nrow =>
            let parent := nrow.parent.getD []
            let nodes1 := s.nodes.filter (fun n => !(n.name == name))
            let nodes2 :=
              if kids.length == 1 then setParent nodes1 (maxName kids) parent
              else nodes1
            ⟨true, some parent, claims, { s with nodes := markDirty nodes2 parent }⟩

/-- The upward deletion walk
`for (node = name; deleteNodeIfPossible(node, parent, claims);) node = parent;`
with explicit fuel (the C++ loop deletes a node on almost every iteration;
fuel `nodes.length + 2` covers every terminating run). -/
def walkUp : Nat → DBState → Bytes → Bytes → Bytes × Int × DBState
  | 0, s, node, _ => (node, 0, s)
  | fuel + 1, s, node, parentVar =>
      let r := deleteNodeIfPossible s node
      if r.ret then
        let pv := r.parentOut.getD parentVar
        walkUp fuel r.st pv pv
      else (node, r.claims, r.st)

/-- Values taken by the recursive `POPS` prefix query: every strict prefix of
`name`, longest first is irrelevant — we only need the set. -/
def strictPrefixesOf (name : Bytes) : List Bytes :=
  (List.range name.length).map (fun k => name.take k)

/-- `parentQuery`: `MAX(name)` over existing nodes whose name is a strict
prefix of the dirty name. -/
def candidateParent (s : DBState) (name : Bytes) : Bytes :=
  let ps := strictPrefixesOf name
  maxName ((s.nodes.filter (fun n => ps.contains n.name)).map (fun n => n.name))

def commonPrefixLen : Bytes → Bytes → Nat
  | a :: as, b :: bs => if a == b then commonPrefixLen as bs + 1 else 0
  | _, _ => 0

/-- Body of the per-dirty-name loop of `ensureTreeStructureIsUpToDate`
(trie.cpp 288-334): walk deletions upward; if the name still has claims,
find its parent, split a sibling edge when needed, and (re-)insert it. -/
def treeStep (s : DBState) (name : Bytes) : DBState :=
  let w := walkUp (s.nodes.length + 2) s name []
  let node := w.1
  let claims := w.2.1
  let s := w.2.2
  if node != name || name.isEmpty || decide (claims ≤ 0) then s
  else
    let parent0 := candidateParent s name
    let psize := parent0.length + 1
    let sibs := (childrenOf s.nodes parent0).map (fun n => n.name)
    match sibs.find? (fun sib => sib.take psize == name.take psize) with
    | none => { s with nodes := upsertNode s.nodes name parent0 }
    | some sib =>
        let splitPos := psize + commonPrefixLen (sib.drop psize) (name.drop psize)
        let newNodeName := name.take splitPos
        let nodes1 := setParent s.nodes sib newNodeName
        if splitPos == name.length then
          { s with nodes := upsertNode nodes1 name parent0 }
        else
          let nodes2 := upsertNode nodes1 newNodeName parent0
          { s with nodes := upsertNode nodes2 name newNodeName }

def parentOf (nodes : List NodeRow) (name : Bytes) : Option Bytes :=
  (nodes.find? (fun n => n.name == name)).bind (fun n => n.parent)

/-- Fixpoint of the recursive CTE percolating dirtiness to ancestors. -/
def ancestorClosure (nodes : List NodeRow) : Nat → List Bytes → List Bytes
  | 0, acc => acc
  | fuel + 1, acc =>
      let next := (acc.filterMap (fun q =>
        if q.isEmpty then none else parentOf nodes q)).filter
          (fun q => !acc.contains q)
      if next.isEmpty then acc else ancestorClosure nodes fuel (acc ++ next)

/-- Final `UPDATE` of `ensureTreeStructureIsUpToDate`: mark every ancestor of
a dirty node dirty. -/
def percolateDirty (s : DBState) : DBState :=
  let seed := ((s.nodes.filter (fun n => n.hash.isNone)).filterMap
    (fun n => n.parent)).dedup
  let closure := ancestorClosure s.nodes (s.nodes.length + 1) seed
  { s with nodes := s.nodes.map (fun n =>
      if closure.contains n.name then { n with hash := none } else n) }

/-- `ensureTreeStructureIsUpToDate` (trie.cpp 254-346). -/
def ensureTreeStructureIsUpToDate (s : DBState) : DBState :=
  if !s.transacting then s
  else
    let names := (dirtyNames s).mergeSort (fun a b => blobLe a b)
    if names.isEmpty then s
    else percolateDirty (names.foldl treeStep s)

/-- Effect of `getMerkleHash` on the tables (trie.cpp 599-621): run the
structure maintainer, then fill every NULL hash.  The bottom-up hash
computation itself only assigns hash values, which we keep abstract as `f`. -/
def merkleStep (s : DBState) (f : Bytes → Bytes) : DBState :=
  let t := ensureTreeStructureIsUpToDate s
  { t with nodes := t.nodes.map (fun n =>
      if n.hash.isNone then { n with hash := some (f n.name) } else n) }

/-- Effect of `flush` (trie.cpp 521-535) on the flat table state: on a
successful commit the transaction closes and the workaround set clears; on a
failed commit the state is returned as-is (see the dedicated transaction
model below for the commit/rollback visibility). -/
def flushState (s : DBState) (f : Bytes → Bytes) (commitOk : Bool) : DBState :=
  if s.transacting then
    let t := merkleStep s f
    if commitOk then { t with transacting := false, removalWorkaround := [] }
    else t
  else { s with removalWorkaround := [] }

/-! ## getClaimsForName (trie.cpp 164-177, 397-433) -/

/-- `getSupportsForName`: includes supports that are not yet valid. -/
def getSupportsForName (s : DBState) (name : Bytes) : List SupportRow :=
  s.supports.filter (fun su => su.nodeName == name &&
    decide (su.expirationHeight ≥ s.nextHeight))

structure ClaimNsupports where
  claim : ClaimRow
  effectiveAmount : Int
  supports : List SupportRow
deriving DecidableEq, Repr

/-- The claim-row loop of `getClaimsForName`: each claim starts from its own
amount only if already active, adds the amounts of its active matched
supports, and removes matched supports from the pool. -/
def buildEntries (H : Int) : List ClaimRow → List SupportRow →
    List ClaimNsupports × List SupportRow
  | [], sups => ([], sups)
  | c :: cs, sups =>
      let matched := sups.filter (fun su => su.supportedClaimID == c.claimID)
      let remaining := sups.filter (fun su => !(su.supportedClaimID == c.claimID))
      let eff := (if c.activationHeight < H then c.amount else 0) +
        ((matched.filter (fun su => decide (su.activationHeight < H))).map
          (fun su => su.amount)).sum
      let rest := buildEntries H cs remaining
      (⟨c, eff, matched⟩ :: rest.1, rest.2)

/-- Sort key for the final `std::sort`.  Modelled from the spec:
`CClaimNsupports::operator<` is declared outside these sources; per the spec
the entries are "ordered by descending effective amount then by ascending
updateHeight then outpoint". -/
def entryKey (e : ClaimNsupports) : Int ×ₗ (Int ×ₗ ((List Nat) ×ₗ Nat)) :=
  toLex (-e.effectiveAmount,
    toLex (e.claim.updateHeight, toLex (e.claim.txID, e.claim.txN)))

def entryLe (a b : ClaimNsupports) : Prop := entryKey a ≤ entryKey b

instance : DecidableRel entryLe := fun a b =>
  inferInstanceAs (Decidable (entryKey a ≤ entryKey b))

instance : IsTotal ClaimNsupports entryLe :=
  ⟨fun a b => le_total (entryKey a) (entryKey b)⟩

instance : IsTrans ClaimNsupports entryLe :=
  ⟨fun _ _ _ h h2 => le_trans h h2⟩

structure ClaimSupportToName where
  name : Bytes
  lastTakeoverHeight : Int
  claimsNsupports : List ClaimNsupports
  unmatchedSupports : List SupportRow
deriving DecidableEq, Repr

/-- `getClaimsForName` (trie.cpp 397-433). -/
def getClaimsForName (s : DBState) (name : Bytes) : ClaimSupportToName :=
  let lastTakeoverHeight := ((latestTakeover s.takeovers name).map
    (fun x => x.1)).getD 0
  let supports := getSupportsForName s name
  let rows := s.claims.filter (fun c => c.nodeName == name &&
    decide (c.expirationHeight ≥ s.nextHeight))
  let be := buildEntries s.nextHeight rows supports
  ⟨name, lastTakeoverHeight, List.insertionSort entryLe be.1, be.2⟩

/-! ## findNameForClaim (trie.cpp 964-982) -/

/-- `findNameForClaim(claim, value, name)`: `claim` is a byte-reversed
claim-id prefix; the query returns up to two live rows whose reversed
claimID lies between the prefix and the prefix padded with 0xff to 20
bytes; exactly one hit succeeds. -/
def findNameForClaim (s : DBState) (claim : Bytes) : Option ClaimRow :=
  if claim.length > 20 then none
  else
    let maximum := claim ++ List.replicate (20 - claim.length) 255
    match s.claims.filter (fun c => blobLe claim c.claimID.reverse &&
        blobLe c.claimID.reverse maximum && claimLiveAt c s.nextHeight) with
    | [c] => some c
    | _ => none

/-! ## Transaction visibility model (trie.cpp 117-126, 521-535, 584-592) -/

/-- A cache connection: the last committed table state, the state visible
inside the open transaction, and the `transacting` flag.  `baseNextHeight`
is the owning `CClaimTrie`'s `nNextHeight`. -/
structure CacheTx where
  committed : DBState
  visible : DBState
  transacting : Bool
  baseNextHeight : Int
deriving Repr

/-- `flush` (trie.cpp 521-535): with an open transaction it recomputes the
Merkle state and commits; when the commit fails it returns `false` right
away — `transacting` stays true, the base height is not propagated and the
workaround set is not cleared.  `merkle` abstracts `getMerkleHash`,
`commitOk` the result of `sqlite::commit`. -/
def flushTx (merkle : DBState → DBState) (commitOk : Bool) (c : CacheTx) :
    Bool × CacheTx :=
  if c.transacting then
    let v := merkle c.visible
    if commitOk then
      (true, { committed := v, visible := { v with removalWorkaround := [] },
               transacting := false, baseNextHeight := v.nextHeight })
    else (false, { c with visible := v })
  else
    (true, { c with baseNextHeight := c.visible.nextHeight,
                    visible := { c.visible with removalWorkaround := [] } })

/-- `~CClaimTrieCacheBase` (trie.cpp 117-126): rolls back any open
transaction, discarding pending mutations. -/
def destructorTx (c : CacheTx) : CacheTx :=
  if c.transacting then { c with visible := c.committed, transacting := false }
  else c

/-! ## Reachability (all mutating operations of the cache) -/

/-- One mutating operation of the engine, as a relation on table states.
`stepMerkle`'s `f` abstracts the computed node hashes, `stepFlush`'s
`commitOk` the commit outcome, and `stepSetHeight` covers `validateDb`'s
height assignment. -/
inductive Step (p : TrieParams) : DBState → DBState → Prop
  | stepAddClaim (s : DBState) (name txID : Bytes) (txN : Nat) (claimId : Bytes)
      (amt h vh oh : Int) : Step p s (addClaim p s name txID txN claimId amt h vh oh)
  | stepAddSupport (s : DBState) (name txID : Bytes) (txN : Nat) (suppId : Bytes)
      (amt h vh : Int) : Step p s (addSupport p s name txID txN suppId amt h vh)
  | stepRemoveClaim (s : DBState) (claimId txID : Bytes) (txN : Nat) :
      Step p s (removeClaim p s claimId txID txN).2
  | stepRemoveSupport (s : DBState) (txID : Bytes) (txN : Nat) :
      Step p s (removeSupport s txID txN).2
  | stepIncrement (s : DBState) : Step p s (incrementBlock p s)
  | stepDecrement (s : DBState) : Step p s (decrementBlock s)
  | stepFinalize (s : DBState) : Step p s (finalizeDecrement s)
  | stepMerkle (s : DBState) (f : Bytes → Bytes) : Step p s (merkleStep s f)
  | stepFlush (s : DBState) (f : Bytes → Bytes) (commitOk : Bool) :
      Step p s (flushState s f commitOk)
  | stepDelay (s : DBState) (name claimId : Bytes) :
      Step p s (getDelayForName p s name claimId).2
  | stepSetHeight (s : DBState) (h : Int) : Step p s { s with nextHeight := h }

/-- States reachable from a freshly created store. -/
inductive Reachable (p : TrieParams) : DBState → Prop
  | init (h : Int) : Reachable p (initialState h)
  | step {s t : DBState} : Reachable p s → Step p s t → Reachable p t

/-- The root node: a row whose name is the empty byte string. -/
def rootExists (s : DBState) : Prop := ∃ n ∈ s.nodes, n.name = []

/-! ## Theorems -/

/-- C3: for every outpoint `(txHash, txN)` and takeover height below `2^32`,
`getValueHash` returns `H(H(txHash) ‖ H(ascii-decimal(txN)) ‖ H(bigEndian64(h)))`
where the 8-byte encoding of the height has its high four bytes zero and the
32-bit height big-endian in the low four bytes (whose value decodes back to
the height).  The double-SHA256 primitive `Hsh` is abstract: it is declared
in `hashes.h`, outside these sources. -/
theorem getValueHash_spec (Hsh : Bytes → Bytes) (txHash : Bytes) (txN h : Nat)
    (hlt : h < 2 ^ 32) :
    getValueHash Hsh txHash txN h = specHashValue Hsh txHash txN h ∧
    (heightToVch h).length = 8 ∧
    (heightToVch h).take 4 = [0, 0, 0, 0] ∧
    (heightToVch h).drop 4 = bigEndian32 h ∧
    beNat ((heightToVch h).drop 4) = h := by
  have hb : heightToVch h = [0, 0, 0, 0] ++ bigEndian32 h := by
    show [0, 0, 0, 0, h >>> 24 % 256, h >>> 16 % 256, h >>> 8 % 256, h % 256] = _
    simp [bigEndian32, Nat.shiftRight_eq_div_pow]
  refine ⟨?_, by rw [hb]; rfl, by rw [hb]; rfl, by rw [hb]; rfl, ?_⟩
  · simp only [getValueHash, specHashValue, hb]
  · rw [hb]
    show beNat (bigEndian32 h) = h
    simp only [beNat, bigEndian32, List.foldl]
    omega

theorem getValueHash_spec_witness :
    70000 < 2 ^ 32 ∧
    getValueHash (fun l => l) [17] 3 70000 =
      specHashValue (fun l => l) [17] 3 70000 :=
  ⟨by decide, (getValueHash_spec (fun l => l) [17] 3 70000 (by decide)).1⟩

/-- C10: a prefix longer than 20 bytes makes `findNameForClaim` return
nothing, whatever the table state — the guard precedes the query, so no
claim row is consulted and the out-parameters stay untouched. -/
theorem findNameForClaim_long (s : DBState) (claim : Bytes)
    (h : 20 < claim.length) : findNameForClaim s claim = none := by
  simp [findNameForClaim, h]

theorem findNameForClaim_long_witness :
    20 < (List.replicate 21 0 : Bytes).length ∧
    findNameForClaim (initialState 0) (List.replicate 21 0) = none :=
  ⟨by decide, findNameForClaim_long (initialState 0) (List.replicate 21 0)
    (by decide)⟩

/-! ### C7: flush on commit failure -/

def c7visible : DBState :=
  { initialState 10 with
    claims := [⟨[1], [97], [97], [9], 0, 2, 2, 2, 2, 500, 10⟩],
    transacting := true }

def c7cache : CacheTx := ⟨initialState 10, c7visible, true, 10⟩

/-- C7 fails on the code: when the commit fails, `flush` returns false but
leaves the transaction OPEN — `transacting` stays true and the pending
mutation (the extra claim row) is still visible, not rolled back. -/
theorem flushTx_fail_counterexample :
    (flushTx id false c7cache).1 = false ∧
    (flushTx id false c7cache).2.transacting = true ∧
    (flushTx id false c7cache).2.visible.claims
      ≠ (flushTx id false c7cache).2.committed.claims := by
  decide

/-- C7 (amended): when the commit fails inside `flush`, `flush` returns
false and leaves the write transaction open (`transacting` still true, the
committed state untouched, the pending mutations still visible); the
rollback that discards them happens only in the destructor
`~CClaimTrieCacheBase`, which restores the committed state. -/
theorem flushTx_fail_rollback_in_destructor (merkle : DBState → DBState)
    (c : CacheTx) (ht : c.transacting = true) :
    (flushTx merkle false c).1 = false ∧
    (flushTx merkle false c).2.transacting = true ∧
    (flushTx merkle false c).2.committed = c.committed ∧
    (flushTx merkle false c).2.visible = merkle c.visible ∧
    (destructorTx (flushTx merkle false c).2).transacting = false ∧
    (destructorTx (flushTx merkle false c).2).visible = c.committed := by
  simp [flushTx, destructorTx, ht]

theorem flushTx_fail_rollback_in_destructor_witness :
    c7cache.transacting = true ∧
    (flushTx id false c7cache).1 = false ∧
    (destructorTx (flushTx id false c7cache).2).visible = c7cache.committed :=
  ⟨rfl, (flushTx_fail_rollback_in_destructor id c7cache rfl).1,
    (flushTx_fail_rollback_in_destructor id c7cache rfl).2.2.2.2.2⟩

/-! ### C5: validHeight defaulting in addSupport vs addClaim -/

/-- `getDelayForName` only ever touches the `removalWorkaround` set. -/
theorem getDelayForName_tables (p : TrieParams) (s : DBState)
    (name claimId : Bytes) :
    (getDelayForName p s name claimId).2.claims = s.claims ∧
    (getDelayForName p s name claimId).2.supports = s.supports ∧
    (getDelayForName p s name claimId).2.nodes = s.nodes ∧
    (getDelayForName p s name claimId).2.takeovers = s.takeovers ∧
    (getDelayForName p s name claimId).2.nextHeight = s.nextHeight ∧
    (getDelayForName p s name claimId).2.transacting = s.transacting := by
  unfold getDelayForName
  rcases getLastTakeoverForName s name with _ | ⟨winId, winH⟩ <;>
    dsimp only <;> split_ifs <;> simp

/-- C5 fails on the code: `addSupport` with `validHeight = 0` stores 0
verbatim — the recomputation `height + delayForName(…)` (which would give 5
here) only happens for strictly negative input, unlike `addClaim` which
recomputes for `validHeight <= 0`. -/
theorem addSupport_validHeight_zero_counterexample :
    ((addSupport ⟨32, 0, 0, 100, []⟩ (initialState 10) [97] [9] 0 [2] 50 5 0).supports.map
      (fun su => su.validHeight)) = [0] ∧
    5 + (getDelayForName ⟨32, 0, 0, 100, []⟩ (ensureTransacting (initialState 10)) [97] [2]).1
      = 5 ∧
    ((addClaim ⟨32, 0, 0, 100, []⟩ (initialState 10) [97] [9] 0 [2] 50 5 0 0).claims.map
      (fun c => c.validHeight)) = [5] ∧
    (0 : Int) ≠ 5 := by
  decide

/-- C5 (amended): `addSupport` computes the stored `validHeight` and
`activationHeight` as `height + delayForName(name, supportedClaimId)` only
when the incoming `validHeight` is strictly negative (`validHeight = 0` is
stored verbatim); `addClaim` applies the rule for `validHeight ≤ 0`. -/
theorem addSupport_validHeight_rule (p : TrieParams) (s : DBState)
    (name txID : Bytes) (txN : Nat) (suppId claimId txIDC : Bytes) (txNC : Nat)
    (amt h vh amtC hC vhC ohC : Int)
    (hvh : vh < 0) (hvhC : vhC ≤ 0) :
    (addSupport p s name txID txN suppId amt h vh).supports =
      s.supports ++ [⟨txID, txN, suppId, name, name, h,
        h + (getDelayForName p (ensureTransacting s) name suppId).1,
        h + (getDelayForName p (ensureTransacting s) name suppId).1,
        p.nOriginalClaimExpirationTime + h, amt⟩] ∧
    (addClaim p s name txIDC txNC claimId amtC hC vhC ohC).claims =
      s.claims ++ [⟨claimId, name, name, txIDC, txNC,
        (if ohC ≤ 0 then hC else ohC), hC,
        hC + (getDelayForName p (ensureTransacting s) name claimId).1,
        hC + (getDelayForName p (ensureTransacting s) name claimId).1,
        p.nOriginalClaimExpirationTime + hC, amtC⟩] := by
  constructor
  · unfold addSupport
    simp only [if_pos hvh]
    dsimp only [adjustNameForValidHeight]
    have hsup := (getDelayForName_tables p (ensureTransacting s) name suppId).2.1
    simp only [ensureTransacting] at hsup
    split <;> simp [hsup, ensureTransacting]
  · unfold addClaim
    simp only [if_pos hvhC]
    dsimp only [adjustNameForValidHeight]
    have hcl := (getDelayForName_tables p (ensureTransacting s) name claimId).1
    simp only [ensureTransacting] at hcl
    split <;> simp [hcl, ensureTransacting]

theorem addSupport_validHeight_rule_witness :
    ((-1 : Int) < 0) ∧ ((0 : Int) ≤ 0) ∧
    (addSupport ⟨32, 0, 0, 100, []⟩ (initialState 10) [97] [9] 0 [2] 50 5 (-1)).supports =
      [⟨[9], 0, [2], [97], [97], 5,
        5 + (getDelayForName ⟨32, 0, 0, 100, []⟩
          (ensureTransacting (initialState 10)) [97] [2]).1,
        5 + (getDelayForName ⟨32, 0, 0, 100, []⟩
          (ensureTransacting (initialState 10)) [97] [2]).1, 105, 50⟩] :=
  ⟨by decide, by decide,
    (addSupport_validHeight_rule ⟨32, 0, 0, 100, []⟩ (initialState 10)
      [97] [9] 0 [2] [2] [9] 0 50 5 (-1) 50 5 0 0 (by decide) (by decide)).1⟩

/-! ### C6: removeClaim / removeSupport on an unknown outpoint -/

/-- C6: when no claim row matches `(claimId, outpoint)` with its expiration
not yet passed, `removeClaim` returns false and leaves the claim, support,
node, takeover tables and the workaround set unchanged; `removeSupport` on
an outpoint with no such support row likewise returns false with the state
untouched. -/
theorem remove_unknown_noop (p : TrieParams) (s : DBState)
    (claimId txID txID2 : Bytes) (txN txN2 : Nat)
    (h1 : ∀ c ∈ s.claims, ¬(c.claimID = claimId ∧ c.txID = txID ∧
      c.txN = txN ∧ c.expirationHeight ≥ s.nextHeight))
    (h2 : ∀ su ∈ s.supports, ¬(su.txID = txID2 ∧ su.txN = txN2 ∧
      su.expirationHeight ≥ s.nextHeight)) :
    (removeClaim p s claimId txID txN).1 = none ∧
    (removeClaim p s claimId txID txN).2.claims = s.claims ∧
    (removeClaim p s claimId txID txN).2.supports = s.supports ∧
    (removeClaim p s claimId txID txN).2.nodes = s.nodes ∧
    (removeClaim p s claimId txID txN).2.takeovers = s.takeovers ∧
    (removeClaim p s claimId txID txN).2.removalWorkaround = s.removalWorkaround ∧
    (removeSupport s txID2 txN2).1 = none ∧
    (removeSupport s txID2 txN2).2 = s := by
  have hf1 : List.find? (fun c => c.claimID == claimId && c.txID == txID &&
      c.txN == txN && decide (c.expirationHeight ≥ s.nextHeight)) s.claims
        = none := by
    rw [List.find?_eq_none]
    intro c hc
    have := h1 c hc
    simp only [Bool.and_eq_true, beq_iff_eq, decide_eq_true_eq, not_and] at *
    tauto
  have hf2 : List.find? (fun su => su.txID == txID2 && su.txN == txN2 &&
      decide (su.expirationHeight ≥ s.nextHeight)) s.supports = none := by
    rw [List.find?_eq_none]
    intro su hsu
    have := h2 su hsu
    simp only [Bool.and_eq_true, beq_iff_eq, decide_eq_true_eq, not_and] at *
    tauto
  have hrc : removeClaim p s claimId txID txN = (none, ensureTransacting s) := by
    simp only [removeClaim, ensureTransacting]
    rw [hf1]
  have hrs : removeSupport s txID2 txN2 = (none, s) := by
    simp only [removeSupport]
    rw [hf2]
  rw [hrc, hrs]
  simp [ensureTransacting]

theorem remove_unknown_noop_witness :
    (removeClaim ⟨32, 0, 0, 100, []⟩ (initialState 10) [1] [9] 0).1 = none ∧
    (removeSupport (initialState 10) [9] 0).2 = initialState 10 :=
  ⟨(remove_unknown_noop ⟨32, 0, 0, 100, []⟩ (initialState 10) [1] [9] [9] 0 0
      (by intro c hc; simp [initialState] at hc)
      (by intro su hsu; simp [initialState] at hsu)).1,
    (remove_unknown_noop ⟨32, 0, 0, 100, []⟩ (initialState 10) [1] [9] [9] 0 0
      (by intro c hc; simp [initialState] at hc)
      (by intro su hsu; simp [initialState] at hsu)).2.2.2.2.2.2.2⟩

/-! ### C1: getDelayForName -/

/-- C1: the delay for `(name, claimId)` is 0 when the current winner is this
claimId; 0 when there is no current winner (no takeover record or a null
claimID); and otherwise — when the applicable legacy exception does not fire
(the implicit-branching-node check past `nMaxRemovalWorkaroundHeight`, the
`removalWorkaround` set otherwise) — it equals
`min((nextHeight - winnerTakeoverHeight) / proportionalDelayFactor, 4032)`. -/
theorem getDelayForName_spec (p : TrieParams) (s : DBState)
    (name claimId : Bytes) :
    (∀ winId winH, getLastTakeoverForName s name = some (winId, winH) →
      winId = claimId → (getDelayForName p s name claimId).1 = 0) ∧
    (getLastTakeoverForName s name = none →
      (getDelayForName p s name claimId).1 = 0) ∧
    (∀ winId winH, getLastTakeoverForName s name = some (winId, winH) →
      winId ≠ claimId →
      (if s.nextHeight > p.nMaxRemovalWorkaroundHeight
        then emptyNodeShouldExistAt s name s.nextHeight 2 = false
        else s.removalWorkaround.contains name = false) →
      (getDelayForName p s name claimId).1 =
        min ((s.nextHeight - winH).tdiv p.nProportionalDelayFactor) 4032) := by
  refine ⟨?_, ?_, ?_⟩
  · intro winId winH hw heq
    unfold getDelayForName
    rw [hw]
    simp [heq]
  · intro hw
    unfold getDelayForName
    rw [hw]
    split_ifs <;> rfl
  · intro winId winH hw hne hexc
    unfold getDelayForName
    rw [hw]
    dsimp only
    rw [if_neg (by simpa using hne)]
    by_cases hgt : s.nextHeight > p.nMaxRemovalWorkaroundHeight
    · rw [if_pos hgt] at hexc ⊢
      rw [if_neg (by simp [hexc])]
    · rw [if_neg hgt] at hexc ⊢
      have hmem : name ∉ s.removalWorkaround := by simpa using hexc
      rw [if_neg (by simpa using hmem)]

def c1state : DBState :=
  { initialState 164 with takeovers := [⟨[97], 100, some [1]⟩] }

theorem getDelayForName_spec_witness :
    getLastTakeoverForName c1state [97] = some ([1], 100) ∧
    (getDelayForName ⟨32, 0, 0, 100, []⟩ c1state [97] [2]).1 =
      min ((c1state.nextHeight - 100).tdiv 32) 4032 :=
  ⟨by decide,
    (getDelayForName_spec ⟨32, 0, 0, 100, []⟩ c1state [97] [2]).2.2 [1] 100
      (by decide) (by decide) (by decide)⟩

/-! ### C2: takeover resolution inside incrementBlock -/

theorem map_ite_eq_self {α : Type} (q : α → Bool) (f : α → α) (l : List α)
    (h : l.any q = false) : (l.map (fun a => if q a then f a else a)) = l := by
  induction l with
  | nil => rfl
  | cons a as ih =>
      simp only [List.any_cons, Bool.or_eq_false_iff] at h
      simp [h.1, ih h.2]

/-- When `activateAllFor` reports no modified rows, the state is unchanged. -/
theorem activateAllFor_untouched (s : DBState) (name : Bytes)
    (h : (activateAllFor s name).1 = false) : (activateAllFor s name).2 = s := by
  unfold activateAllFor at *
  simp only [Bool.or_eq_false_iff] at h
  have h1 := map_ite_eq_self
    (fun c : ClaimRow => c.nodeName == name &&
      decide (c.activationHeight > s.nextHeight) &&
      decide (c.expirationHeight > s.nextHeight))
    (fun c => { c with activationHeight := s.nextHeight }) s.claims h.1
  have h2 := map_ite_eq_self
    (fun su : SupportRow => su.nodeName == name &&
      decide (su.activationHeight > s.nextHeight) &&
      decide (su.expirationHeight > s.nextHeight))
    (fun su => { su with activationHeight := s.nextHeight }) s.supports h.2
  show { s with claims := _, supports := _ } = s
  rw [h1, h2]

theorem activateAllFor_nextHeight (s : DBState) (name : Bytes) :
    (activateAllFor s name).2.nextHeight = s.nextHeight := rfl

/-- C2 (amended): during `incrementBlock` at height `H`, for a dirty node
name `N` a takeover row `(N, H, candidateId-or-null)` is written iff there
is no current winner, or no best-claim candidate at `H+1`, or the winner's
claimId differs from the candidate's, OR — the part the original sentence
misses — `H < 658300` and `(H, N)` is in the hard-coded workaround table
(modelled from the spec; `takeoverworkarounds.h` is outside the sources).
Activation (setting `activationHeight := H` on every claim and support
under `N` with `activationHeight > H` and `expirationHeight > H`, after
which the candidate written into the row is re-read) happens exactly under
the normal rule, not for table-forced takeovers. -/
theorem processTakeover_spec (p : TrieParams) (s : DBState) (name : Bytes) :
    (processTakeover p s name =
      (let s1 := if normalTakeoverRule s name then (activateAllFor s name).2 else s
       if normalTakeoverRule s name ||
          (decide (s.nextHeight < 658300) &&
            p.takeoverWorkarounds.contains (s.nextHeight, name)) then
         { s1 with takeovers :=
             ⟨name, s.nextHeight,
               (getInfoForName s1 name 1).map (fun c => c.claimID)⟩ :: s1.takeovers }
       else s1)) ∧
    ((activateAllFor s name).2.claims = s.claims.map (fun c =>
        if c.nodeName == name && decide (c.activationHeight > s.nextHeight) &&
            decide (c.expirationHeight > s.nextHeight)
        then { c with activationHeight := s.nextHeight } else c)) ∧
    ((activateAllFor s name).2.supports = s.supports.map (fun su =>
        if su.nodeName == name && decide (su.activationHeight > s.nextHeight) &&
            decide (su.expirationHeight > s.nextHeight)
        then { su with activationHeight := s.nextHeight } else su)) ∧
    insertTakeovers p s = (dirtyNames s).foldl (processTakeover p) s := by
  refine ⟨?_, rfl, rfl, rfl⟩
  unfold processTakeover
  cases h0 : normalTakeoverRule s name with
  | false => simp [h0]
  | true =>
      cases hmod : (activateAllFor s name).1 with
      | false =>
          have hid := activateAllFor_untouched s name hmod
          simp [h0, hmod, hid]
      | true => simp [h0, hmod, activateAllFor_nextHeight]

def c2state : DBState :=
  { nodes := [⟨[], none, some emptyTrieHash⟩, ⟨[97], some [], none⟩],
    claims := [⟨[1], [97], [97], [9], 0, 1, 1, 1, 1, 1000, 10⟩],
    supports := [], takeovers := [⟨[97], 50, some [1]⟩],
    nextHeight := 100, removalWorkaround := [], transacting := true }

/-- C2 fails on the code as stated: at height 100 the name `[97]` has a
current winner `[1]` which is also the candidate at height 101 (so the
claimed iff-condition is false), yet a takeover row is recorded because
`(100, [97])` is in the hard-coded workaround table and 100 < 658300. -/
theorem processTakeover_workaround_counterexample :
    normalTakeoverRule c2state [97] = false ∧
    (processTakeover ⟨32, 0, 0, 2000, [(100, [97])]⟩ c2state [97]).takeovers =
      ⟨[97], 100, some [1]⟩ :: c2state.takeovers := by
  decide

/-! ### C4: getClaimsForName effective amounts and ordering -/

theorem buildEntries_cons (H : Int) (c : ClaimRow) (cs : List ClaimRow)
    (sups : List SupportRow) :
    buildEntries H (c :: cs) sups =
      (⟨c, (if c.activationHeight < H then c.amount else 0) +
          (((sups.filter (fun su => su.supportedClaimID == c.claimID)).filter
            (fun su => decide (su.activationHeight < H))).map
              (fun su => su.amount)).sum,
          sups.filter (fun su => su.supportedClaimID == c.claimID)⟩ ::
        (buildEntries H cs (sups.filter
          (fun su => !(su.supportedClaimID == c.claimID)))).1,
       (buildEntries H cs (sups.filter
          (fun su => !(su.supportedClaimID == c.claimID)))).2) := rfl

/-- Every entry built by the claim loop carries the computed effective
amount: the claim's own amount when already active, plus its matched
supports that are active. -/
theorem buildEntries_eff (H : Int) (rows : List ClaimRow) :
    ∀ (sups : List SupportRow) (e : ClaimNsupports),
      e ∈ (buildEntries H rows sups).1 →
      e.effectiveAmount =
        (if e.claim.activationHeight < H then e.claim.amount else 0) +
        ((e.supports.filter (fun su => decide (su.activationHeight < H))).map
          (fun su => su.amount)).sum := by
  induction rows with
  | nil => intro sups e he; simp [buildEntries] at he
  | cons c cs ih =>
      intro sups e he
      rw [buildEntries_cons] at he
      rcases List.mem_cons.mp he with hhead | htail
      · subst hhead; rfl
      · exact ih _ e htail

def c4live : DBState :=
  { nodes := [⟨[], none, some emptyTrieHash⟩, ⟨[110], some [], none⟩],
    claims := [⟨[1], [110], [110], [9], 0, 1, 1, 1, 1, 1000, 100⟩],
    supports := [⟨[8], 0, [1], [110], [110], 1, 1, 1, 1000, 40⟩,
                 ⟨[8], 1, [1], [110], [110], 1, 1, 1, 1000, 60⟩],
    takeovers := [], nextHeight := 10, removalWorkaround := [],
    transacting := true }

/-- C4 (amended): every entry returned by `getClaimsForName` carries
`effectiveAmount` equal to the claim's amount — counted only if the claim
is itself already active (`activationHeight < nextHeight`), else 0 — plus
the sum of the amounts of its active supports; the entries are sorted by
descending effective amount, then ascending updateHeight, then outpoint
(the comparator is modelled from the spec: `CClaimNsupports::operator<`
lives outside these sources); and a live claim of amount 100 with two live
supports of 40 and 60 reports `effectiveAmount = 200`. -/
theorem getClaimsForName_spec (s : DBState) (name : Bytes) :
    List.Sorted entryLe (getClaimsForName s name).claimsNsupports ∧
    (∀ e ∈ (getClaimsForName s name).claimsNsupports,
      e.effectiveAmount =
        (if e.claim.activationHeight < s.nextHeight then e.claim.amount else 0) +
        ((e.supports.filter (fun su =>
          decide (su.activationHeight < s.nextHeight))).map
            (fun su => su.amount)).sum) ∧
    ((getClaimsForName c4live [110]).claimsNsupports.map
      (fun e => (e.effectiveAmount, e.supports.length))) = [(200, 2)] := by
  refine ⟨List.sorted_insertionSort entryLe _, ?_, by decide⟩
  intro e he
  have hmem : e ∈ (buildEntries s.nextHeight
      (s.claims.filter (fun c => c.nodeName == name &&
        decide (c.expirationHeight ≥ s.nextHeight)))
      (getSupportsForName s name)).1 :=
    (List.perm_insertionSort entryLe _).mem_iff.mp he
  exact buildEntries_eff s.nextHeight _ _ e hmem

def c4pending : DBState :=
  { initialState 5 with
    claims := [⟨[1], [97], [97], [9], 0, 1, 1, 5, 5, 100, 100⟩] }

/-- C4 fails on the code as stated: a claim of amount 100 whose activation
height equals `nextHeight` (not yet active, expiration not passed) is
returned by `getClaimsForName` with `effectiveAmount = 0`, not
`100 + (sum of active supports) = 100`. -/
theorem getClaimsForName_pending_counterexample :
    ((getClaimsForName c4pending [97]).claimsNsupports.map
      (fun e => (e.effectiveAmount, e.claim.amount, e.supports))) =
        [(0, 100, [])] ∧
    (0 : Int) ≠ 100 := by
  decide

/-! ### C8: findNameForClaim by claim-id prefix -/

theorem blobLe_all_max (l : Bytes) (hb : ∀ b ∈ l, b ≤ 255) :
    blobLe l (List.replicate l.length 255) = true := by
  induction l with
  | nil => rfl
  | cons a as ih =>
      simp only [List.length_cons, List.replicate_succ, blobLe]
      have ha : a ≤ 255 := hb a (List.mem_cons_self a as)
      rcases Nat.lt_or_ge a 255 with h | h
      · simp [h]
      · have haeq : a = 255 := le_antisymm ha h
        subst haeq
        simp [ih (fun b hbm => hb b (List.mem_cons_of_mem _ hbm))]

/-- A fixed-length blob lies in `[pre, pre ++ 0xff-pad]` (SQLite BLOB
comparison) iff it starts with `pre`. -/
theorem blobRange_iff (pre : Bytes) : ∀ (rev : Bytes),
    pre.length ≤ rev.length → (∀ b ∈ rev, b ≤ 255) →
    ((blobLe pre rev &&
      blobLe rev (pre ++ List.replicate (rev.length - pre.length) 255)) = true
      ↔ pre <+: rev) := by
  induction pre with
  | nil =>
      intro rev _ hb
      simp [blobLe, blobLe_all_max rev hb, List.nil_prefix]
  | cons p ps ih =>
      intro rev hlen hb
      cases rev with
      | nil => simp at hlen
      | cons r rs =>
          have hlen2 : ps.length ≤ rs.length := by
            simpa using hlen
          have hb2 : ∀ b ∈ rs, b ≤ 255 :=
            fun b hbm => hb b (List.mem_cons_of_mem _ hbm)
          simp only [blobLe, List.cons_append, List.length_cons,
            Nat.succ_sub_succ, List.cons_prefix_cons, Bool.and_eq_true,
            Bool.or_eq_true, decide_eq_true_eq, beq_iff_eq]
          constructor
          · rintro ⟨hA, hB⟩
            rcases hA with hlt | ⟨heq, hle⟩
            · rcases hB with hlt2 | ⟨heq2, _⟩ <;> omega
            · subst heq
              rcases hB with hlt2 | ⟨_, hle2⟩
              · omega
              · exact ⟨rfl, (ih rs hlen2 hb2).mp
                  (by simp only [Bool.and_eq_true]; exact ⟨hle, hle2⟩)⟩
          · rintro ⟨heq, hpre⟩
            subst heq
            have hboth := (ih rs hlen2 hb2).mpr hpre
            simp only [Bool.and_eq_true] at hboth
            exact ⟨Or.inr ⟨rfl, hboth.1⟩, Or.inr ⟨rfl, hboth.2⟩⟩

/-- C8: for a prefix of at most 20 bytes (over well-formed 20-byte claim
ids), `findNameForClaim` returns a claim iff exactly one live claim has a
byte-reversed claimID starting with the prefix; when it does, the returned
row is that unique claim (carrying its node name). -/
theorem findNameForClaim_spec (s : DBState) (pre : Bytes)
    (hlen : pre.length ≤ 20)
    (hwf : ∀ c ∈ s.claims, c.claimID.length = 20 ∧ ∀ b ∈ c.claimID, b ≤ 255) :
    ((∃ c, findNameForClaim s pre = some c) ↔
      (s.claims.filter (fun c => claimLiveAt c s.nextHeight &&
        pre.isPrefixOf c.claimID.reverse)).length = 1) ∧
    (∀ c, findNameForClaim s pre = some c →
      s.claims.filter (fun c2 => claimLiveAt c2 s.nextHeight &&
        pre.isPrefixOf c2.claimID.reverse) = [c]) := by
  have hfilter : s.claims.filter (fun c => blobLe pre c.claimID.reverse &&
        blobLe c.claimID.reverse (pre ++ List.replicate (20 - pre.length) 255) &&
        claimLiveAt c s.nextHeight) =
      s.claims.filter (fun c => claimLiveAt c s.nextHeight &&
        pre.isPrefixOf c.claimID.reverse) := by
    apply List.filter_congr
    intro c hc
    have h20 : c.claimID.reverse.length = 20 := by
      rw [List.length_reverse]; exact (hwf c hc).1
    have hbrev : ∀ b ∈ c.claimID.reverse, b ≤ 255 :=
      fun b hbm => (hwf c hc).2 b (List.mem_reverse.mp hbm)
    have hrange := blobRange_iff pre c.claimID.reverse (by omega) hbrev
    rw [h20] at hrange
    have hpf : pre.isPrefixOf c.claimID.reverse = true ↔
        pre <+: c.claimID.reverse := List.isPrefixOf_iff_prefix
    cases hlive : claimLiveAt c s.nextHeight
    · simp [hlive]
    · simp only [hlive, Bool.and_true, Bool.true_and]
      rw [Bool.eq_iff_iff]
      exact hrange.trans hpf.symm
  have hnot : ¬(pre.length > 20) := by omega
  have heq : findNameForClaim s pre =
      (match s.claims.filter (fun c2 => claimLiveAt c2 s.nextHeight &&
        pre.isPrefixOf c2.claimID.reverse) with
       | [c] => some c
       | _ => none) := by
    unfold findNameForClaim
    rw [if_neg hnot]
    show (match s.claims.filter (fun c => blobLe pre c.claimID.reverse &&
        blobLe c.claimID.reverse (pre ++ List.replicate (20 - pre.length) 255) &&
        claimLiveAt c s.nextHeight) with
      | [c] => some c
      | _ => none) = _
    rw [hfilter]
  rw [heq]
  cases hsplit : s.claims.filter (fun c2 => claimLiveAt c2 s.nextHeight &&
      pre.isPrefixOf c2.claimID.reverse) with
  | nil => simp
  | cons a rest =>
      cases rest with
      | nil => simp
      | cons b t => simp

def c8state : DBState :=
  { initialState 10 with
    claims := [⟨List.replicate 19 0 ++ [7], [97], [97], [9], 0, 1, 1, 1, 1,
      100, 10⟩] }

theorem findNameForClaim_spec_witness :
    ([7] : Bytes).length ≤ 20 ∧
    (∃ c, findNameForClaim c8state [7] = some c) :=
  ⟨by decide,
    ((findNameForClaim_spec c8state [7] (by decide) (by decide)).1).mpr
      (by decide)⟩

/-! ### C9: the root node always exists -/

/-- The node list contains a row with the empty name. -/
def rootIn (l : List NodeRow) : Prop := ∃ n ∈ l, n.name = []

theorem rootIn_map (l : List NodeRow) (f : NodeRow → NodeRow)
    (hf : ∀ n, (f n).name = n.name) (h : rootIn l) : rootIn (l.map f) := by
  obtain ⟨n, hn, hname⟩ := h
  exact ⟨f n, List.mem_map_of_mem f hn, by rw [hf n, hname]⟩

theorem rootIn_append (l l2 : List NodeRow) (h : rootIn l) : rootIn (l ++ l2) := by
  obtain ⟨n, hn, hname⟩ := h
  exact ⟨n, List.mem_append_left l2 hn, hname⟩

theorem rootIn_markDirty (l : List NodeRow) (name : Bytes) (h : rootIn l) :
    rootIn (markDirty l name) := by
  apply rootIn_map _ _ _ h
  intro n
  by_cases hn : n.name == name <;> simp [hn]

theorem rootIn_setParent (l : List NodeRow) (name parent : Bytes)
    (h : rootIn l) : rootIn (setParent l name parent) := by
  apply rootIn_map _ _ _ h
  intro n
  by_cases hn : n.name == name <;> simp [hn]

theorem rootIn_upsertDirty (l : List NodeRow) (name : Bytes) (h : rootIn l) :
    rootIn (upsertDirty l name) := by
  unfold upsertDirty
  split
  · exact rootIn_markDirty l name h
  · exact rootIn_append _ _ h

theorem rootIn_upsertNode (l : List NodeRow) (name parent : Bytes)
    (h : rootIn l) : rootIn (upsertNode l name parent) := by
  unfold upsertNode
  split
  · apply rootIn_map _ _ _ h
    intro n
    by_cases hn : n.name == name <;> simp [hn]
  · exact rootIn_append _ _ h

theorem rootIn_filter_ne (l : List NodeRow) (name : Bytes) (hne : name ≠ [])
    (h : rootIn l) : rootIn (l.filter (fun n => !(n.name == name))) := by
  obtain ⟨n, hn, hname⟩ := h
  refine ⟨n, List.mem_filter.mpr ⟨hn, ?_⟩, hname⟩
  rw [hname]
  simp only [Bool.not_eq_true']
  exact beq_eq_false_iff_ne.mpr (fun hc => hne hc.symm)

theorem rootIn_foldl {β : Type} (g : List NodeRow → β → List NodeRow)
    (hg : ∀ l b, rootIn l → rootIn (g l b)) :
    ∀ (bs : List β) (l : List NodeRow), rootIn l → rootIn (bs.foldl g l) := by
  intro bs
  induction bs with
  | nil => intro l h; exact h
  | cons b bs ih => intro l h; exact ih _ (hg l b h)

theorem rootExists_foldl {β : Type} (g : DBState → β → DBState)
    (hg : ∀ s b, rootIn s.nodes → rootIn (g s b).nodes) :
    ∀ (bs : List β) (s : DBState), rootIn s.nodes →
      rootIn (bs.foldl g s).nodes := by
  intro bs
  induction bs with
  | nil => intro s h; exact h
  | cons b bs ih => intro s h; exact ih _ (hg s b h)

theorem rootIn_deleteNode (s : DBState) (name : Bytes) (h : rootIn s.nodes) :
    rootIn (deleteNodeIfPossible s name).st.nodes := by
  unfold deleteNodeIfPossible
  dsimp only
  split
  · exact h
  · rename_i hempty
    have hne : name ≠ [] := by
      intro hcon
      subst hcon
      exact hempty rfl
    repeat' split
    all_goals try exact h
    all_goals dsimp only
    all_goals apply rootIn_markDirty
    · exact rootIn_setParent _ _ _ (rootIn_filter_ne _ _ hne h)
    · exact rootIn_filter_ne _ _ hne h

theorem rootIn_walkUp (fuel : Nat) :
    ∀ (s : DBState) (node pv : Bytes), rootIn s.nodes →
      rootIn (walkUp fuel s node pv).2.2.nodes := by
  induction fuel with
  | zero => intro s node pv h; exact h
  | succ fuel ih =>
      intro s node pv h
      unfold walkUp
      dsimp only
      split
      · exact ih _ _ _ (rootIn_deleteNode s node h)
      · exact rootIn_deleteNode s node h

theorem rootIn_treeStep (s : DBState) (name : Bytes) (h : rootIn s.nodes) :
    rootIn (treeStep s name).nodes := by
  unfold treeStep
  have hw := rootIn_walkUp (s.nodes.length + 2) s name [] h
  dsimp only
  split
  · exact hw
  · split
    · exact rootIn_upsertNode _ _ _ hw
    · split
      · exact rootIn_upsertNode _ _ _ (rootIn_setParent _ _ _ hw)
      · exact rootIn_upsertNode _ _ _
          (rootIn_upsertNode _ _ _ (rootIn_setParent _ _ _ hw))

theorem rootIn_percolate (s : DBState) (h : rootIn s.nodes) :
    rootIn (percolateDirty s).nodes := by
  unfold percolateDirty
  apply rootIn_map _ _ _ h
  intro n
  split <;> rfl

theorem rootIn_ensureTree (s : DBState) (h : rootIn s.nodes) :
    rootIn (ensureTreeStructureIsUpToDate s).nodes := by
  unfold ensureTreeStructureIsUpToDate
  split
  · exact h
  · dsimp only
    split
    · exact h
    · exact rootIn_percolate _ (rootExists_foldl treeStep rootIn_treeStep _ s h)

theorem rootIn_merkleStep (s : DBState) (f : Bytes → Bytes)
    (h : rootIn s.nodes) : rootIn (merkleStep s f).nodes := by
  unfold merkleStep
  apply rootIn_map _ _ _ (rootIn_ensureTree s h)
  intro n
  split <;> rfl

theorem rootExists_addClaim (p : TrieParams) (s : DBState) (name txID : Bytes)
    (txN : Nat) (claimId : Bytes) (amt hgt vh oh : Int) (h : rootIn s.nodes) :
    rootIn (addClaim p s name txID txN claimId amt hgt vh oh).nodes := by
  have h2 : rootIn (getDelayForName p (ensureTransacting s) name claimId).2.nodes := by
    rw [(getDelayForName_tables p (ensureTransacting s) name claimId).2.2.1]
    exact h
  unfold addClaim
  by_cases hvh : vh ≤ 0
  · simp only [if_pos hvh]
    try dsimp only
    split
    · exact rootIn_upsertDirty _ _ h2
    · exact h2
  · simp only [if_neg hvh]
    try dsimp only
    split
    · exact rootIn_upsertDirty _ _ h
    · exact h

theorem rootExists_addSupport (p : TrieParams) (s : DBState) (name txID : Bytes)
    (txN : Nat) (suppId : Bytes) (amt hgt vh : Int) (h : rootIn s.nodes) :
    rootIn (addSupport p s name txID txN suppId amt hgt vh).nodes := by
  have h2 : rootIn (getDelayForName p (ensureTransacting s) name suppId).2.nodes := by
    rw [(getDelayForName_tables p (ensureTransacting s) name suppId).2.2.1]
    exact h
  unfold addSupport
  by_cases hvh : vh < 0
  · simp only [if_pos hvh]
    try dsimp only
    split
    · exact rootIn_markDirty _ _ h2
    · exact h2
  · simp only [if_neg hvh]
    try dsimp only
    split
    · exact rootIn_markDirty _ _ h
    · exact h

theorem rootExists_removeClaim (p : TrieParams) (s : DBState)
    (claimId txID : Bytes) (txN : Nat) (h : rootIn s.nodes) :
    rootIn (removeClaim p s claimId txID txN).2.nodes := by
  unfold removeClaim
  try dsimp only
  split
  · exact h
  · try dsimp only
    split
    · exact rootIn_markDirty _ _ h
    · exact rootIn_markDirty _ _ h

theorem rootExists_removeSupport (s : DBState) (txID : Bytes) (txN : Nat)
    (h : rootIn s.nodes) : rootIn (removeSupport s txID txN).2.nodes := by
  unfold removeSupport
  try dsimp only
  split
  · exact h
  · exact rootIn_markDirty _ _ h

theorem processTakeover_nodes (p : TrieParams) (s : DBState) (name : Bytes) :
    (processTakeover p s name).nodes = s.nodes := by
  unfold processTakeover
  dsimp only
  repeat' split
  all_goals rfl

theorem insertTakeovers_nodes (p : TrieParams) :
    ∀ (bs : List Bytes) (s : DBState),
      (bs.foldl (processTakeover p) s).nodes = s.nodes := by
  intro bs
  induction bs with
  | nil => intro s; rfl
  | cons b bs ih =>
      intro s
      rw [List.foldl_cons, ih, processTakeover_nodes]

theorem rootExists_incrementBlock (p : TrieParams) (s : DBState)
    (h : rootIn s.nodes) : rootIn (incrementBlock p s).nodes := by
  unfold incrementBlock insertTakeovers
  dsimp only
  rw [insertTakeovers_nodes]
  dsimp only
  exact rootIn_foldl markDirty (fun l b hb => rootIn_markDirty l b hb) _ _
    (rootIn_foldl upsertDirty (fun l b hb => rootIn_upsertDirty l b hb) _ _ h)

theorem rootExists_decrementBlock (s : DBState) (h : rootIn s.nodes) :
    rootIn (decrementBlock s).nodes := by
  unfold decrementBlock
  dsimp only
  exact rootIn_foldl markDirty (fun l b hb => rootIn_markDirty l b hb) _ _
    (rootIn_foldl upsertDirty (fun l b hb => rootIn_upsertDirty l b hb) _ _ h)

theorem rootExists_finalizeDecrement (s : DBState) (h : rootIn s.nodes) :
    rootIn (finalizeDecrement s).nodes := by
  unfold finalizeDecrement
  dsimp only
  exact rootIn_foldl markDirty (fun l b hb => rootIn_markDirty l b hb) _ _ h

theorem rootExists_flushState (s : DBState) (f : Bytes → Bytes)
    (commitOk : Bool) (h : rootIn s.nodes) :
    rootIn (flushState s f commitOk).nodes := by
  unfold flushState
  split
  · dsimp only
    split
    · exact rootIn_merkleStep s f h
    · exact rootIn_merkleStep s f h
  · exact h

/-- C9: in every reachable state the root node (empty name) exists — it is
inserted at store creation with the empty-trie hash, and no operation ever
deletes it, because `deleteNodeIfPossible` refuses an empty name (returning
false and leaving the state unchanged). -/
theorem root_node_invariant (p : TrieParams) (s : DBState)
    (hr : Reachable p s) :
    rootExists s ∧
    (∀ hgt : Int,
      (⟨[], none, some emptyTrieHash⟩ : NodeRow) ∈ (initialState hgt).nodes) ∧
    (∀ t : DBState, (deleteNodeIfPossible t []).ret = false ∧
      (deleteNodeIfPossible t []).st = t) := by
  refine ⟨?_, fun hgt => List.mem_singleton.mpr rfl, fun t => ⟨rfl, rfl⟩⟩
  induction hr with
  | init hgt => exact ⟨⟨[], none, some emptyTrieHash⟩, List.mem_singleton.mpr rfl, rfl⟩
  | step hprev hstep ih =>
      rename_i s0 t0
      cases hstep with
      | stepAddClaim name txID txN claimId amt hh vh oh =>
          exact rootExists_addClaim p s0 name txID txN claimId amt hh vh oh ih
      | stepAddSupport name txID txN suppId amt hh vh =>
          exact rootExists_addSupport p s0 name txID txN suppId amt hh vh ih
      | stepRemoveClaim claimId txID txN =>
          exact rootExists_removeClaim p s0 claimId txID txN ih
      | stepRemoveSupport txID txN =>
          exact rootExists_removeSupport s0 txID txN ih
      | stepIncrement => exact rootExists_incrementBlock p s0 ih
      | stepDecrement => exact rootExists_decrementBlock s0 ih
      | stepFinalize => exact rootExists_finalizeDecrement s0 ih
      | stepMerkle f => exact rootIn_merkleStep s0 f ih
      | stepFlush f commitOk => exact rootExists_flushState s0 f commitOk ih
      | stepDelay name claimId =>
          show rootIn (getDelayForName p s0 name claimId).2.nodes
          rw [(getDelayForName_tables p s0 name claimId).2.2.1]
          exact ih
      | stepSetHeight hgt => exact ih

theorem root_node_invariant_witness : rootExists (initialState 7) :=
  (root_node_invariant ⟨32, 0, 0, 100, []⟩ (initialState 7)
    (Reachable.init 7)).1

end ClaimTrie
